import Mathlib

/-!
# Verification of the citation protocol of `document_kb`

Shallow embedding of the citation encoder/decoder and the context assembler
of the repository (`src/lib/citation-parser.ts` and `src/app/api/qa/route.ts`).

JavaScript strings are modelled as `List Char`.  JavaScript `number` values
holding citation indices are modelled as `Nat` (exact integers; all numbers
produced by the code are small array indices, far below 2^53 where the
JavaScript representation is exact).  Chunk relevance scores are modelled as
`Option ℚ` (`undefined` score ↦ `none`); `chunk.score || 0` maps `none` to `0`
and keeps every other value, which agrees with the JavaScript expression on
all non-NaN inputs (and `0 || 0 = 0`).

Regular expressions are embedded by hand, following the exact backtracking
behaviour of the concrete patterns in the source (all quantifiers in those
patterns are over character classes that are disjoint from the literal that
follows, so the greedy matches are computed by `takeWhile`/`dropWhile`; the
one exception, `\s*\n\n?` in the Sources-heading pattern, is resolved below
in `headingMatch` exactly as the backtracking engine resolves it: the `\n`
is the last newline of the maximal whitespace run).
-/

/-- The JavaScript `\s` character class (also the character set removed by
`String.prototype.trim`): tab through carriage return, space, NBSP, Ogham
space mark, the U+2000–U+200A range, line/paragraph separators, narrow
no-break space, medium mathematical space, ideographic space, and BOM. -/
def isJsWs (c : Char) : Bool :=
  decide ((9 ≤ c.toNat ∧ c.toNat ≤ 13) ∨ c.toNat = 32 ∨ c.toNat = 160 ∨
    c.toNat = 5760 ∨ (8192 ≤ c.toNat ∧ c.toNat ≤ 8202) ∨ c.toNat = 8232 ∨
    c.toNat = 8233 ∨ c.toNat = 8239 ∨ c.toNat = 8287 ∨ c.toNat = 12288 ∨
    c.toNat = 65279)

/-- The JavaScript `\d` character class: the ASCII digits `0`–`9`. -/
def isDigitCh (c : Char) : Bool :=
  decide (48 ≤ c.toNat ∧ c.toNat ≤ 57)

/-- ASCII lower-casing, the canonicalisation performed by a case-insensitive
(non-unicode) JavaScript regex on the letters of the word `Sources`. -/
def asciiLower (c : Char) : Char :=
  if 65 ≤ c.toNat ∧ c.toNat ≤ 90 then Char.ofNat (c.toNat + 32) else c

/-- `String.prototype.trim`: remove `isJsWs` characters from both ends. -/
def jsTrim (l : List Char) : List Char :=
  ((l.dropWhile isJsWs).reverse.dropWhile isJsWs).reverse

/-- `String.prototype.split(sep)` for a single-character separator. -/
def splitOnChar (sep : Char) : List Char → List (List Char)
  | [] => [[]]
  | c :: rest =>
    if c = sep then [] :: splitOnChar sep rest
    else
      match splitOnChar sep rest with
      | [] => [[c]]
      | p :: ps => (c :: p) :: ps

/-- `Array.prototype.join(sep)`. -/
def joinWith (sep : List Char) : List (List Char) → List Char
  | [] => []
  | [x] => x
  | x :: y :: xs => x ++ sep ++ joinWith sep (y :: xs)

/-- `parseInt(ds, 10)` on a non-empty ASCII digit string. -/
def valOfDigits (ds : List Char) : Nat :=
  ds.foldl (fun a c => 10 * a + (c.toNat - 48)) 0

/-- Decimal digit extraction, most significant first, with explicit fuel so
that the kernel can evaluate it (`n` itself bounds the digit count). -/
def renderNatAux : Nat → Nat → List Char
  | 0, _ => []
  | fuel + 1, n =>
    if n = 0 then []
    else renderNatAux fuel (n / 10) ++ [Nat.digitChar (n % 10)]

/-- Decimal rendering of a natural number, as produced by a JavaScript
template literal `${n}` for an exact integer. -/
def renderNat (n : Nat) : List Char :=
  if n = 0 then ['0'] else renderNatAux n n

lemma digitChar_toNat_of_lt {d : Nat} (h : d < 10) :
    (Nat.digitChar d).toNat = d + 48 := by
  interval_cases d <;> rfl

lemma isDigitCh_digitChar {d : Nat} (h : d < 10) :
    isDigitCh (Nat.digitChar d) = true := by
  interval_cases d <;> rfl

lemma isJsWs_of_isDigitCh {c : Char} (h : isDigitCh c = true) :
    isJsWs c = false := by
  simp only [isDigitCh, decide_eq_true_eq] at h
  simp only [isJsWs, decide_eq_false_iff_not]
  omega

lemma valOfDigits_append (xs : List Char) (c : Char) :
    valOfDigits (xs ++ [c]) = 10 * valOfDigits xs + (c.toNat - 48) := by
  simp [valOfDigits, List.foldl_append]

lemma renderNatAux_val (fuel : Nat) :
    ∀ n, n ≤ fuel → valOfDigits (renderNatAux fuel n) = n := by
  induction fuel with
  | zero =>
    intro n hn
    interval_cases n
    simp [renderNatAux, valOfDigits]
  | succ fuel ih =>
    intro n hn
    rw [renderNatAux]
    by_cases h0 : n = 0
    · simp [h0, valOfDigits]
    · rw [if_neg h0, valOfDigits_append,
        ih (n / 10) (by omega),
        digitChar_toNat_of_lt (Nat.mod_lt n (by norm_num))]
      omega

lemma valOfDigits_renderNat (n : Nat) : valOfDigits (renderNat n) = n := by
  unfold renderNat
  by_cases h0 : n = 0
  · simp [h0, valOfDigits]
  · rw [if_neg h0]
    exact renderNatAux_val n n le_rfl

lemma renderNatAux_all_digits (fuel : Nat) :
    ∀ n c, c ∈ renderNatAux fuel n → isDigitCh c = true := by
  induction fuel with
  | zero =>
    intro n c hc
    simp [renderNatAux] at hc
  | succ fuel ih =>
    intro n c hc
    rw [renderNatAux] at hc
    split at hc
    · simp at hc
    · rcases List.mem_append.1 hc with h1 | h1
      · exact ih (n / 10) c h1
      · simp only [List.mem_singleton] at h1
        subst h1
        exact isDigitCh_digitChar (Nat.mod_lt n (by omega))

lemma renderNat_all_digits (n : Nat) :
    ∀ c ∈ renderNat n, isDigitCh c = true := by
  intro c hc
  unfold renderNat at hc
  split at hc
  · simp only [List.mem_singleton] at hc
    subst hc
    rfl
  · exact renderNatAux_all_digits n n c hc

lemma renderNat_ne_nil (n : Nat) : renderNat n ≠ [] := by
  unfold renderNat
  split
  · simp
  · rename_i h
    obtain ⟨fuel, rfl⟩ : ∃ fuel, n = fuel + 1 := ⟨n - 1, by omega⟩
    rw [renderNatAux, if_neg h]
    simp

/-! ## Citation decoder — inline footnote segmentation

Embedding of `parseFootnoteCitations` and `parseTextWithFootnotes` from
`src/lib/citation-parser.ts`.  Both scan the text left to right with the
global regex `\[(\d+)\]`; `matchCitation` is that pattern anchored at the
current position (a literal `[`, a maximal non-empty digit run — greedy
`\d+` cannot backtrack since the following literal `]` is not a digit —
then a literal `]`). -/

/-- A parsed `[n]` marker (interface `ParsedCitation`). -/
structure ParsedCitation where
  fullMatch : List Char
  citationNumber : Nat
deriving DecidableEq

/-- Segment kind: the `type: 'text' | 'citation'` field of `TextSegment`. -/
inductive SegKind where
  | text : SegKind
  | citation : SegKind
deriving DecidableEq

/-- A segment of the decomposition (interface `TextSegment`); `citation` is
`none` exactly when the source object lacks the optional field. -/
structure TextSegment where
  type : SegKind
  content : List Char
  citation : Option ParsedCitation
deriving DecidableEq

/-- The regex `\[(\d+)\]` anchored at the head of the list: on success,
returns the full match, the parsed citation number, and the rest. -/
def matchCitation : List Char → Option (List Char × Nat × List Char)
  | '[' :: rest =>
    let ds := rest.takeWhile isDigitCh
    if ds.isEmpty then none
    else
      match rest.dropWhile isDigitCh with
      | ']' :: rest2 => some ('[' :: ds ++ [']'], valOfDigits ds, rest2)
      | _ => none
  | _ => none

lemma matchCitation_append {l f : List Char} {n : Nat} {r : List Char}
    (h : matchCitation l = some (f, n, r)) : l = f ++ r := by
  unfold matchCitation at h
  split at h
  · rename_i rest
    simp only at h
    split at h
    · simp at h
    · split at h
      · rename_i rest2 heq
        simp only [Option.some.injEq, Prod.mk.injEq] at h
        obtain ⟨hf, hn, hr⟩ := h
        subst hf hr
        have h2 : rest.takeWhile isDigitCh ++ rest.dropWhile isDigitCh = rest :=
          List.takeWhile_append_dropWhile isDigitCh rest
        rw [heq] at h2
        simp only [List.cons_append, List.append_assoc, List.singleton_append,
          List.nil_append]
        rw [h2]
      · simp at h
  · simp at h

lemma matchCitation_length {l f : List Char} {n : Nat} {r : List Char}
    (h : matchCitation l = some (f, n, r)) : r.length < l.length := by
  have hl := matchCitation_append h
  have hf : f ≠ [] := by
    unfold matchCitation at h
    split at h
    · simp only at h
      split at h
      · simp at h
      · split at h
        · simp only [Option.some.injEq, Prod.mk.injEq] at h
          obtain ⟨hf, _, _⟩ := h
          subst hf
          simp
        · simp at h
    · simp at h
  subst hl
  have : 0 < f.length := List.length_pos.2 hf
  simp only [List.length_append]
  omega

/-- The scanning loop of `parseTextWithFootnotes`: `acc` holds (reversed)
the plain characters seen since `lastIndex`.  Text segments are only
emitted for non-empty spans, mirroring the `match.index > lastIndex` and
`lastIndex < text.length` guards in the source. -/
def segGo : List Char → List Char → List TextSegment
  | [], acc =>
    if acc.isEmpty then [] else [⟨SegKind.text, acc.reverse, none⟩]
  | c :: cs, acc =>
    match h : matchCitation (c :: cs) with
    | some (f, n, rest) =>
      (if acc.isEmpty then [] else [⟨SegKind.text, acc.reverse, none⟩]) ++
        ⟨SegKind.citation, f, some ⟨f, n⟩⟩ :: segGo rest []
    | none => segGo cs (c :: acc)
termination_by l acc => l.length
decreasing_by
  · exact matchCitation_length h
  · simp

/-- `parseTextWithFootnotes` (src/lib/citation-parser.ts line 99). -/
def parseTextWithFootnotes (text : List Char) : List TextSegment :=
  segGo text []

/-- The scanning loop of `parseFootnoteCitations`. -/
def citGo : List Char → List ParsedCitation
  | [] => []
  | c :: cs =>
    match h : matchCitation (c :: cs) with
    | some (f, n, rest) => ⟨f, n⟩ :: citGo rest
    | none => citGo cs
termination_by l => l.length
decreasing_by
  · exact matchCitation_length h
  · simp

/-- `parseFootnoteCitations` (src/lib/citation-parser.ts line 18). -/
def parseFootnoteCitations (text : List Char) : List ParsedCitation :=
  citGo text

/-! ## Citation decoder — source-block extraction

Embedding of `extractSourcesSection` (src/lib/citation-parser.ts line 43).

The heading regex `/##\s*Sources\s*\n\n?([\s\S]*)$/i` is unanchored, so
`String.prototype.match` returns the match at the *leftmost* position where
the pattern succeeds (the trailing `([\s\S]*)$` matches any remainder, so a
position succeeds as soon as `##\s*Sources\s*\n\n?` does).  `headingMatch`
decides the pattern at one position; `findSplitGo` performs the left-to-
right scan, returning the text before the match (`match.index` prefix) and
capture group 1.  Inside the pattern, greedy `\s*` before `Sources` must
consume the whole whitespace run (no whitespace character can start
`Sources`), and `\s*\n\n?` after it resolves, by greedy backtracking, to:
the `\n` is the last newline of the following maximal whitespace run and
`\n?` is then forced empty, so group 1 starts right after that newline. -/

/-- The word the heading pattern looks for, lower-cased. -/
def sourcesWord : List Char := ['s', 'o', 'u', 'r', 'c', 'e', 's']

/-- The part of the heading pattern after the two `#` characters:
`\s*Sources\s*\n\n?` (case-insensitive) anchored at the head of `s1`; on
success returns the suffix at which capture group 1 (`[\s\S]*$`) starts. -/
def headingCore (s1 : List Char) : Option (List Char) :=
  let s2 := s1.dropWhile isJsWs
  if (s2.take 7).map asciiLower = sourcesWord then
    let s3 := s2.drop 7
    let run := s3.takeWhile isJsWs
    if '\n' ∈ run then
      some (s3.drop (run.length - (run.reverse.takeWhile (fun c => c != '\n')).length))
    else none
  else none

/-- The pattern `##\s*Sources\s*\n\n?` (case-insensitive) anchored at the
head of `s`; on success returns the suffix of `s` at which capture group 1
(`[\s\S]*$`) starts. -/
def headingMatch (s : List Char) : Option (List Char) :=
  match s with
  | c1 :: c2 :: s1 => if c1 = '#' ∧ c2 = '#' then headingCore s1 else none
  | _ => none

/-- Left-to-right scan for the first position where `headingMatch`
succeeds; `acc` holds (reversed) the characters before the current
position.  Returns `(text before the match, capture group 1)`. -/
def findSplitGo : List Char → List Char → Option (List Char × List Char)
  | acc, [] =>
    match headingMatch [] with
    | some g => some (acc.reverse, g)
    | none => none
  | acc, c :: rest =>
    match headingMatch (c :: rest) with
    | some g => some (acc.reverse, g)
    | none => findSplitGo (c :: acc) rest

/-- A parsed source line (interface `SourceItem`); `documentId` is `none`
exactly when the source object lacks the optional field. -/
structure SourceItem where
  number : Nat
  title : List Char
  url : List Char
  isDocumentLink : Bool
  documentId : Option (List Char)
  collections : List (List Char)
deriving DecidableEq

/-- The internal-link scheme `doc://`. -/
def docScheme : List Char := ['d', 'o', 'c', ':', '/', '/']

/-- The literal `(Collections:` of the optional trailing group. -/
def collLit : List Char :=
  ['(', 'C', 'o', 'l', 'l', 'e', 'c', 't', 'i', 'o', 'n', 's', ':']

/-- The optional group `(?:\s*\(Collections:\s*([^)]+)\))?` applied at `l9`
(the suffix after the link's closing parenthesis), followed by the
JavaScript post-processing `split(',').map(trim).filter(nonEmpty)`.  When
the group fails to match, the regex succeeds with the group undefined and
the source assigns `[]`; the backtracking corner where `[^)]+` would
capture a single whitespace character (everything between `:` and `)` being
whitespace) also post-processes to `[]`, which the `c.isEmpty` branch below
returns. -/
def parseCollections (l9 : List Char) : List (List Char) :=
  let a := l9.dropWhile isJsWs
  if collLit.isPrefixOf a then
    let b := (a.drop collLit.length).dropWhile isJsWs
    let c := b.takeWhile (fun x => x != ')')
    if c.isEmpty then []
    else
      match b.dropWhile (fun x => x != ')') with
      | ')' :: _ => ((splitOnChar ',' c).map jsTrim).filter (fun s => !s.isEmpty)
      | _ => []
  else []

/-- The per-line regex
`^\s*(\d+)\.\s*\[([^\]]+)\]\(([^)]+)\)(?:\s*\(Collections:\s*([^)]+)\))?`
and the loop body building a `SourceItem` (src/lib/citation-parser.ts lines
56–81).  Every quantified class is disjoint from the literal that follows,
so each greedy match is the maximal run.  `documentId` is
`url.replace('doc://', '')`: since it is only computed when `url` starts
with `doc://`, the first occurrence replaced is that leading one, i.e. the
result is `url` minus its first six characters. -/
def parseSourceLine (l : List Char) : Option SourceItem :=
  let l1 := l.dropWhile isJsWs
  let ds := l1.takeWhile isDigitCh
  if ds.isEmpty then none
  else
    match l1.dropWhile isDigitCh with
    | c1 :: l3 =>
      if c1 = '.' then
        match l3.dropWhile isJsWs with
        | c2 :: l5 =>
          if c2 = '[' then
            let t := l5.takeWhile (fun x => x != ']')
            if t.isEmpty then none
            else
              match l5.dropWhile (fun x => x != ']') with
              | c3 :: c4 :: l7 =>
                if c3 = ']' ∧ c4 = '(' then
                  let u := l7.takeWhile (fun x => x != ')')
                  if u.isEmpty then none
                  else
                    match l7.dropWhile (fun x => x != ')') with
                    | c5 :: l9 =>
                      if c5 = ')' then
                        some { number := valOfDigits ds, title := t, url := u,
                               isDocumentLink := docScheme.isPrefixOf u,
                               documentId :=
                                 if docScheme.isPrefixOf u then some (u.drop 6)
                                 else none,
                               collections := parseCollections l9 }
                      else none
                    | _ => none
                else none
              | _ => none
          else none
        | _ => none
      else none
    | _ => none

/-- The loop of lines 54–82: split the sources region on newlines, keep the
lines that are non-blank after trimming, and collect the parses of those
that match the grammar, silently dropping the rest. -/
def parseSourceLines (ls : List (List Char)) : List SourceItem :=
  (ls.filter (fun line => !(jsTrim line).isEmpty)).filterMap parseSourceLine

/-- Result record of `extractSourcesSection`. -/
structure ExtractResult where
  mainText : List Char
  sources : List SourceItem
deriving DecidableEq

/-- `extractSourcesSection` (src/lib/citation-parser.ts line 43):
`mainText = text.substring(0, match.index).trim()` and the sources are
parsed from `match[1].trim()`; with no match, the text is returned whole
with no sources. -/
def extractSourcesSection (text : List Char) : ExtractResult :=
  match findSplitGo [] text with
  | some (pre, g) =>
    { mainText := jsTrim pre,
      sources := parseSourceLines (splitOnChar '\n' (jsTrim g)) }
  | none => { mainText := text, sources := [] }

/-! ## Citation encoder

Embedding of the `sourcesList` construction (src/app/api/qa/route.ts lines
153–164): one line per source, `"N. [title](link)"` with the link being
`source.url` when present and `doc://id` otherwise, followed by
`" (Collections: ...)"` when the collections list is non-empty; lines
joined with a single newline.  For round-trip statements the encoder is
expressed on `SourceItem`, whose `url` field already holds the final link
text, exactly as the decoder sees it. -/

/-- The optional `" (Collections: ...)"` suffix of an encoded line. -/
def encodeColl (colls : List (List Char)) : List Char :=
  if colls.isEmpty then []
  else [' '] ++ collLit ++ [' '] ++ joinWith [',', ' '] colls ++ [')']

/-- One encoded source line. -/
def encodeLine (d : SourceItem) : List Char :=
  renderNat d.number ++ ['.', ' ', '['] ++ d.title ++ [']', '('] ++ d.url ++ [')'] ++
    encodeColl d.collections

/-- The joined sources block. -/
def encodeBlock (D : List SourceItem) : List Char :=
  joinWith ['\n'] (D.map encodeLine)

/-- The literal `## Sources\n\n` that the generation instruction places
between the answer body and the encoded block. -/
def headingBlock : List Char :=
  ['#', '#', ' ', 'S', 'o', 'u', 'r', 'c', 'e', 's', '\n', '\n']

/-! ## Claims C1 and C10 — segmentation round-trip and segmenter agreement -/

lemma segGo_concat (cs acc : List Char) :
    ((segGo cs acc).map TextSegment.content).flatten = acc.reverse ++ cs := by
  induction cs, acc using segGo.induct with
  | case1 acc hacc =>
    rw [segGo]
    simp only [List.isEmpty_iff] at hacc
    simp [hacc]
  | case2 acc hacc =>
    rw [segGo]
    simp only [List.isEmpty_iff] at hacc
    simp [hacc]
  | case3 c cs acc f n rest hm ih =>
    rw [segGo, hm]
    have hsplit : c :: cs = f ++ rest := matchCitation_append hm
    by_cases hacc : acc.isEmpty
    · simp only [List.isEmpty_iff] at hacc
      simp [hacc, ih, hsplit]
    · simp [hacc, ih, hsplit]
  | case4 c cs acc hm ih =>
    rw [segGo, hm]
    simp [ih]

/-- **C1.** For every string `s`, concatenating in order the `content`
fields of all segments returned by `parseTextWithFootnotes` reproduces `s`
exactly. -/
theorem parseTextWithFootnotes_concat (s : List Char) :
    ((parseTextWithFootnotes s).map TextSegment.content).flatten = s := by
  simpa using segGo_concat s []

lemma citGo_eq_segGo (cs acc : List Char) :
    citGo cs =
      ((segGo cs acc).filter (fun seg => seg.type == SegKind.citation)).filterMap
        TextSegment.citation := by
  induction cs, acc using segGo.induct with
  | case1 acc hacc =>
    rw [segGo, citGo]
    simp [hacc]
  | case2 acc hacc =>
    rw [segGo, citGo]
    simp [hacc]
  | case3 c cs acc f n rest hm ih =>
    rw [segGo, citGo, hm]
    by_cases hacc : acc.isEmpty
    · simp [hacc, ih]
    · simp [hacc, ih]
  | case4 c cs acc hm ih =>
    rw [segGo, citGo, hm]
    exact ih

/-- **C10.** For every string `s`, the list returned by
`parseFootnoteCitations s` equals, in order, the `citation` fields of
exactly those segments of `parseTextWithFootnotes s` whose type is
`citation`; moreover a segment carries a `citation` field iff its type is
`citation`, so the two functions recognise the same marker occurrences and
parse the same numbers. -/
theorem parseFootnoteCitations_eq_citation_segments (s : List Char) :
    parseFootnoteCitations s =
      ((parseTextWithFootnotes s).filter
        (fun seg => seg.type == SegKind.citation)).filterMap TextSegment.citation
    ∧ ∀ seg ∈ parseTextWithFootnotes s,
        (seg.type = SegKind.citation ↔ seg.citation ≠ none) := by
  constructor
  · exact citGo_eq_segGo s []
  · intro seg hseg
    unfold parseTextWithFootnotes at hseg
    generalize hacc : ([] : List Char) = acc at hseg
    clear hacc
    induction s, acc using segGo.induct with
    | case1 acc hacc =>
      rw [segGo] at hseg
      simp [hacc] at hseg
    | case2 acc hacc =>
      rw [segGo] at hseg
      simp only [List.isEmpty_iff] at hacc
      simp [hacc] at hseg
      simp [hseg]
    | case3 c cs acc f n rest hm ih =>
      rw [segGo, hm] at hseg
      rcases List.mem_append.1 hseg with h1 | h1
      · by_cases hacc : acc.isEmpty <;> simp [hacc] at h1
        · simp [h1]
      · rcases List.mem_cons.1 h1 with h2 | h2
        · simp [h2]
        · exact ih h2
    | case4 c cs acc hm ih =>
      rw [segGo, hm] at hseg
      exact ih hseg

/-! ## Scanning lemmas for the heading search -/

lemma headingMatch_nil : headingMatch [] = none := rfl

lemma findSplitGo_none (s : List Char) (acc : List Char)
    (h : ∀ n < s.length, headingMatch (s.drop n) = none) :
    findSplitGo acc s = none := by
  induction s generalizing acc with
  | nil =>
    rw [findSplitGo]
    simp [headingMatch_nil]
  | cons c rest ih =>
    have h0 : headingMatch (c :: rest) = none := by
      have := h 0 (by simp)
      simpa using this
    rw [findSplitGo, h0]
    exact ih (c :: acc) (fun n hn => by
      have := h (n + 1) (by simpa using Nat.succ_lt_succ hn)
      simpa using this)

lemma findSplitGo_append (pre suf g : List Char) (acc : List Char)
    (hpre : ∀ n < pre.length, headingMatch ((pre ++ suf).drop n) = none)
    (hm : headingMatch suf = some g) :
    findSplitGo acc (pre ++ suf) = some (acc.reverse ++ pre, g) := by
  induction pre generalizing acc with
  | nil =>
    cases suf with
    | nil => rw [headingMatch_nil] at hm; cases hm
    | cons c rest =>
      rw [List.nil_append, findSplitGo, hm]
      simp
  | cons c pre' ih =>
    have h0 : headingMatch (c :: (pre' ++ suf)) = none := by
      have := hpre 0 (by simp)
      simpa using this
    rw [List.cons_append, findSplitGo, h0]
    have := ih (c :: acc) (fun n hn => by
      have := hpre (n + 1) (by simpa using Nat.succ_lt_succ hn)
      simpa using this)
    rw [this]
    simp

/-! ## Claim C5 — absent heading returns the input unchanged -/

/-- **C5.** For every input in which the Sources-heading pattern occurs at
no position, `extractSourcesSection` returns the input unchanged as
`mainText` with an empty sources list.  (The embedding is a total function,
so no exception is possible on any input.) -/
theorem extractSources_no_heading (text : List Char)
    (h : ∀ n < text.length, headingMatch (text.drop n) = none) :
    extractSourcesSection text = ⟨text, []⟩ := by
  unfold extractSourcesSection
  rw [findSplitGo_none text [] h]

/-- Witness for C5, at the truncated streaming prefix from the spec. -/
theorem extractSources_no_heading_witness :
    (∀ n < ("Some answer ## Sour".data).length,
        headingMatch (("Some answer ## Sour".data).drop n) = none)
    ∧ extractSourcesSection "Some answer ## Sour".data =
        ⟨"Some answer ## Sour".data, []⟩ :=
  ⟨by decide, extractSources_no_heading "Some answer ## Sour".data (by decide)⟩

/-! ## Claim C3 — the split happens at the *first* heading, not the last -/

/-- **C3, counterexample.**  On a text with two Sources headings the claim
says `mainText` is everything before the *last* one (here
`"## Sources\nA"`); the code matches the unanchored regex at the leftmost
position, so `mainText` is actually empty. -/
theorem extractSources_not_last_heading :
    (extractSourcesSection "## Sources\nA\n## Sources\n1. [t](u)\n".data).mainText
      ≠ "## Sources\nA".data := by
  decide

/-- **C3, amended.**  `extractSourcesSection` splits at the *first*
position where the heading pattern matches: before it, the trimmed prefix
becomes `mainText`; what capture group 1 yields there (and nothing else) is
parsed as the sources region. -/
theorem extractSources_splits_at_first (pre suf g : List Char)
    (hfirst : ∀ n < pre.length, headingMatch ((pre ++ suf).drop n) = none)
    (hm : headingMatch suf = some g) :
    extractSourcesSection (pre ++ suf) =
      ⟨jsTrim pre, parseSourceLines (splitOnChar '\n' (jsTrim g))⟩ := by
  unfold extractSourcesSection
  rw [findSplitGo_append pre suf g [] hfirst hm]
  simp

/-- Witness for the amended C3. -/
theorem extractSources_splits_at_first_witness :
    (∀ n < ("Hi\n".data).length,
        headingMatch (("Hi\n".data ++ "## Sources\n\n1. [t](u)".data).drop n) = none)
    ∧ headingMatch "## Sources\n\n1. [t](u)".data = some "1. [t](u)".data
    ∧ extractSourcesSection ("Hi\n".data ++ "## Sources\n\n1. [t](u)".data) =
        ⟨jsTrim "Hi\n".data,
          parseSourceLines (splitOnChar '\n' (jsTrim "1. [t](u)".data))⟩ :=
  ⟨by decide, by decide,
    extractSources_splits_at_first "Hi\n".data "## Sources\n\n1. [t](u)".data
      "1. [t](u)".data (by decide) (by decide)⟩

/-! ## Claim C8 — `mainText` is trimmed on both ends, not only trailing -/

/-- **C8, counterexample.**  The claim says only trailing whitespace is
removed from the text before the heading, so on `" hi\n## Sources\n"` the
`mainText` would be `" hi"`; the code applies `String.prototype.trim`,
which also removes the leading space. -/
theorem extractSources_trims_leading_cex :
    (extractSourcesSection " hi\n## Sources\n".data).mainText ≠ " hi".data := by
  decide

/-- **C8, amended.**  For every text with a heading match, `mainText` is
the text before the first match with whitespace removed from *both* ends
(leading whitespace is removed too). -/
theorem mainText_trims_both_ends (pre suf g : List Char)
    (hfirst : ∀ n < pre.length, headingMatch ((pre ++ suf).drop n) = none)
    (hm : headingMatch suf = some g) :
    (extractSourcesSection (pre ++ suf)).mainText =
      ((pre.dropWhile isJsWs).reverse.dropWhile isJsWs).reverse := by
  unfold extractSourcesSection
  rw [findSplitGo_append pre suf g [] hfirst hm]
  simp [jsTrim]

/-- Witness for the amended C8: the leading space of `" hi"` is removed. -/
theorem mainText_trims_both_ends_witness :
    (∀ n < (" hi\n".data).length,
        headingMatch ((" hi\n".data ++ "## Sources\n".data).drop n) = none)
    ∧ headingMatch "## Sources\n".data = some []
    ∧ (extractSourcesSection (" hi\n".data ++ "## Sources\n".data)).mainText =
        (((" hi\n".data).dropWhile isJsWs).reverse.dropWhile isJsWs).reverse
    ∧ (((" hi\n".data).dropWhile isJsWs).reverse.dropWhile isJsWs).reverse =
        "hi".data :=
  ⟨by decide, by decide,
    mainText_trims_both_ends " hi\n".data "## Sources\n".data [] (by decide)
      (by decide),
    by decide⟩

/-! ## Claim C6 — non-matching lines are skipped silently -/

/-- **C6.** Lines of the sources region that do not match the citation-line
grammar are dropped without affecting the parse of the remaining lines, and
on the spec's concrete input the malformed line is silently dropped while
`1. [ok](doc://x)` yields the single source `number = 1`,
`documentId = "x"`, `isDocumentLink = true`. -/
theorem parse_skips_nonmatching_lines :
    (∀ (pre post : List (List Char)) (l : List Char), parseSourceLine l = none →
        parseSourceLines (pre ++ l :: post) = parseSourceLines (pre ++ post))
    ∧ extractSourcesSection "## Sources\n\nnot a valid line\n1. [ok](doc://x)".data =
        ⟨[], [⟨1, "ok".data, "doc://x".data, true, some "x".data, []⟩]⟩ := by
  constructor
  · intro pre post l hl
    unfold parseSourceLines
    by_cases hb : (jsTrim l).isEmpty
    · simp [List.filter_append, List.filter_cons, hb]
    · simp [List.filter_append, List.filter_cons, hb, List.filterMap_append, hl]
  · decide

/-- Witness for C6. -/
theorem parse_skips_nonmatching_lines_witness :
    parseSourceLine "x]junk".data = none
    ∧ parseSourceLines ([] ++ "x]junk".data :: ["1. [t](u)".data]) =
        parseSourceLines ([] ++ ["1. [t](u)".data]) :=
  ⟨by decide,
    parse_skips_nonmatching_lines.1 [] ["1. [t](u)".data] "x]junk".data (by decide)⟩

/-! ## Context assembler

Embedding of the context/sources construction in the `POST` handler
(src/app/api/qa/route.ts lines 109–164).  A `RetrievedDocumentHit` is the
shape of one `searchResults.results` element that the handler reads;
`originalUrl` stands for `metadata.originalUrl || metadata.url || null` and
`tags` (per hit) for `documentDetails[index]?.containerTags || []`, both
values of the external retrieval/storage collaborators.

`result.chunks.sort(comparator)` sorts the array *in place* (ECMAScript
`Array.prototype.sort`, stable since ES2019) — the post-state of each hit
is therefore threaded explicitly: `selectChunks` returns both the selected
chunks and the chunk array as the caller observes it afterwards.  The
stable sort by the comparator `(a, b) => (b.score || 0) - (a.score || 0)`
is the unique permutation that is non-increasing in score and keeps
equal-score elements in their original order; `insertDesc`/`sortByScoreDesc`
compute exactly that permutation. -/

/-- One scored chunk of a retrieval hit. -/
structure RChunk where
  content : List Char
  isRelevant : Bool
  score : Option ℚ
deriving DecidableEq

/-- One retrieval hit (`searchResults.results[i]`), plus the metadata and
document-details values the handler reads for it. -/
structure Hit where
  documentId : List Char
  title : List Char
  rtype : List Char
  chunks : List RChunk
  score : Option ℚ
  originalUrl : Option (List Char)
deriving DecidableEq

/-- `chunk.score || 0`. -/
def scoreVal (c : RChunk) : ℚ := c.score.getD 0

/-- Stable descending insertion: `c` goes before the first element whose
score is not greater than `c`'s. -/
def insertDesc (c : RChunk) : List RChunk → List RChunk
  | [] => [c]
  | d :: ds => if scoreVal d ≤ scoreVal c then c :: d :: ds else d :: insertDesc c ds

/-- The stable sort by score descending performed by
`chunks.sort((a, b) => (b.score || 0) - (a.score || 0))`. -/
def sortByScoreDesc : List RChunk → List RChunk
  | [] => []
  | c :: cs => insertDesc c (sortByScoreDesc cs)

/-- Lines 112–118: the relevant-marked chunks, or — when none is marked —
all chunks sorted by score descending (in place).  Returns the selection
together with the post-state of the hit's chunk array. -/
def selectChunks (chunks : List RChunk) : List RChunk × List RChunk :=
  let rel := chunks.filter (fun c => c.isRelevant)
  if rel.isEmpty then (sortByScoreDesc chunks, sortByScoreDesc chunks)
  else (rel, chunks)

/-- Lines 120–123: at most the first 3 selected chunks enter the context. -/
def selectedChunks (h : Hit) : List RChunk :=
  (selectChunks h.chunks).1.take 3

/-- Lines 110–126 for one hit: its context block and its post-state. -/
def hitBlock (idx : Nat) (h : Hit) : List Char × Hit :=
  (("[Document ".data ++ renderNat (idx + 1) ++ ": \"".data ++ h.title ++
      "\" (ID: ".data ++ h.documentId ++ ")]\n".data ++
      joinWith ['\n', '\n'] ((selectedChunks h).map RChunk.content)),
    { h with chunks := (selectChunks h.chunks).2 })

/-- Lines 109–127: all per-hit blocks joined with the `---` separator,
together with the post-state of the hits array. -/
def buildContext (hits : List Hit) : List Char × List Hit :=
  (joinWith "\n\n---\n\n".data
      ((hits.enum.map (fun p => hitBlock p.1 p.2)).map Prod.fst),
    (hits.enum.map (fun p => hitBlock p.1 p.2)).map Prod.snd)

/-- One element of the `sources` array built at lines 130–151. -/
structure QaSource where
  id : List Char
  title : List Char
  qtype : List Char
  url : Option (List Char)
  collections : List (List Char)
  relevantChunks : Nat
  score : Option ℚ
  citationNumber : Nat
deriving DecidableEq

/-- Lines 130–151 for one hit: `collections` filters the sentinel `all`
tag; `relevantChunks` is `count of relevant chunks || chunk count`. -/
def mkSource (idx : Nat) (h : Hit) (tags : List (List Char)) : QaSource :=
  { id := h.documentId, title := h.title, qtype := h.rtype,
    url := h.originalUrl,
    collections := tags.filter (fun t => t ≠ "all".data),
    relevantChunks :=
      if (h.chunks.filter (fun c => c.isRelevant)).length = 0 then h.chunks.length
      else (h.chunks.filter (fun c => c.isRelevant)).length,
    score := h.score, citationNumber := idx + 1 }

/-- The whole assembler (lines 109–164 up to the encoded block): context
text, sources array, and the post-state of the input hits.  The sources
map runs after the context map, so it reads the post-state hits. -/
def assemble (hits : List Hit) (tags : List (List (List Char))) :
    List Char × List QaSource × List Hit :=
  let post := (buildContext hits).2
  ((buildContext hits).1,
    post.enum.map (fun p => mkSource p.1 p.2 (tags.getD p.1 [])),
    post)

/-! ## Sorting lemmas for the chunk fallback -/

lemma insertDesc_perm (c : RChunk) (l : List RChunk) :
    (insertDesc c l).Perm (c :: l) := by
  induction l with
  | nil => simp [insertDesc]
  | cons d ds ih =>
    rw [insertDesc]
    split
    · exact List.Perm.refl _
    · exact (ih.cons d).trans (List.Perm.swap c d ds)

lemma mem_insertDesc {x c : RChunk} {l : List RChunk} :
    x ∈ insertDesc c l ↔ x = c ∨ x ∈ l := by
  have := (insertDesc_perm c l).mem_iff (a := x)
  simpa using this

lemma insertDesc_pairwise (c : RChunk) (l : List RChunk)
    (h : l.Pairwise (fun a b => scoreVal b ≤ scoreVal a)) :
    (insertDesc c l).Pairwise (fun a b => scoreVal b ≤ scoreVal a) := by
  induction l with
  | nil => simp [insertDesc]
  | cons d ds ih =>
    rw [insertDesc]
    rcases List.pairwise_cons.1 h with ⟨hd, hds⟩
    split
    · rename_i hle
      refine List.pairwise_cons.2 ⟨?_, h⟩
      intro b hb
      rcases List.mem_cons.1 hb with rfl | hb
      · exact hle
      · exact le_trans (hd b hb) hle
    · rename_i hlt
      push_neg at hlt
      refine List.pairwise_cons.2 ⟨?_, ih hds⟩
      intro b hb
      rcases mem_insertDesc.1 hb with rfl | hb
      · exact le_of_lt hlt
      · exact hd b hb

lemma sortByScoreDesc_perm (l : List RChunk) : (sortByScoreDesc l).Perm l := by
  induction l with
  | nil => simp [sortByScoreDesc]
  | cons c cs ih =>
    rw [sortByScoreDesc]
    exact (insertDesc_perm c (sortByScoreDesc cs)).trans (ih.cons c)

lemma sortByScoreDesc_pairwise (l : List RChunk) :
    (sortByScoreDesc l).Pairwise (fun a b => scoreVal b ≤ scoreVal a) := by
  induction l with
  | nil => simp [sortByScoreDesc]
  | cons c cs ih =>
    rw [sortByScoreDesc]
    exact insertDesc_pairwise c (sortByScoreDesc cs) ih

lemma filter_insertDesc (k : ℚ) (c : RChunk) (l : List RChunk) :
    (insertDesc c l).filter (fun d => decide (scoreVal d = k)) =
      if scoreVal c = k then c :: l.filter (fun d => decide (scoreVal d = k))
      else l.filter (fun d => decide (scoreVal d = k)) := by
  induction l with
  | nil =>
    by_cases hck : scoreVal c = k <;> simp [insertDesc, hck]
  | cons d ds ih =>
    rw [insertDesc]
    split
    · by_cases hck : scoreVal c = k <;> simp [List.filter_cons, hck]
    · rename_i hlt
      push_neg at hlt
      by_cases hck : scoreVal c = k
      · have hdk : ¬ (scoreVal d = k) := hck ▸ hlt.ne'
        simp [List.filter_cons, hdk, ih, hck]
      · simp [List.filter_cons, ih, hck]

lemma filter_sortByScoreDesc (k : ℚ) (l : List RChunk) :
    (sortByScoreDesc l).filter (fun d => decide (scoreVal d = k)) =
      l.filter (fun d => decide (scoreVal d = k)) := by
  induction l with
  | nil => simp [sortByScoreDesc]
  | cons c cs ih =>
    rw [sortByScoreDesc, filter_insertDesc]
    by_cases hck : scoreVal c = k <;> simp [List.filter_cons, hck, ih]


/-! ## Claim C4 — numbering fidelity -/

lemma post_hits_map_documentId (hits : List Hit) :
    (buildContext hits).2.map Hit.documentId = hits.map Hit.documentId := by
  simp only [buildContext, List.map_map]
  have h1 : (Hit.documentId ∘ Prod.snd ∘ fun p : Nat × Hit => hitBlock p.1 p.2)
      = Hit.documentId ∘ Prod.snd := by
    funext p
    rfl
  rw [h1, ← List.map_map, List.enum_map_snd]

lemma post_hits_length (hits : List Hit) :
    (buildContext hits).2.length = hits.length := by
  simp [buildContext, List.enum_length]

/-- **C4.** For every non-empty sequence of retrieved hits, the assembler
produces exactly one source descriptor per hit, numbered contiguously
`1..n` in input order; positionally, each descriptor carries the
`documentId` of the hit it was built from. -/
theorem assemble_numbering (hits : List Hit) (tags : List (List (List Char)))
    (hne : hits ≠ []) :
    ((assemble hits tags).2.1).length = hits.length
    ∧ ((assemble hits tags).2.1).map QaSource.citationNumber =
        List.range' 1 hits.length
    ∧ ((assemble hits tags).2.1).map QaSource.id = hits.map Hit.documentId := by
  refine ⟨?_, ?_, ?_⟩
  · simp [assemble, List.enum_length, post_hits_length hits]
  · have h1 : ((assemble hits tags).2.1).map QaSource.citationNumber
        = ((buildContext hits).2.enum.map Prod.fst).map (fun i => i + 1) := by
      simp only [assemble, List.map_map]
      exact List.map_congr_left (fun p _ => rfl)
    rw [h1, List.enum_map_fst, post_hits_length hits, List.range'_eq_map_range]
    exact List.map_congr_left (fun x _ => by omega)
  · have h1 : ((assemble hits tags).2.1).map QaSource.id
        = ((buildContext hits).2.enum.map Prod.snd).map Hit.documentId := by
      simp only [assemble, List.map_map]
      exact List.map_congr_left (fun p _ => rfl)
    rw [h1, List.enum_map_snd, post_hits_map_documentId hits]

/-- Witness for C4 on two concrete hits. -/
theorem assemble_numbering_witness :
    ([(⟨"d1".data, "T1".data, "text".data, [], none, none⟩ : Hit),
      ⟨"d2".data, "T2".data, "text".data, [], none, some "u".data⟩] ≠ [])
    ∧ ((assemble
          [⟨"d1".data, "T1".data, "text".data, [], none, none⟩,
           ⟨"d2".data, "T2".data, "text".data, [], none, some "u".data⟩] []).2.1).map
        QaSource.citationNumber = List.range' 1 2 :=
  ⟨by decide,
    (assemble_numbering
      [⟨"d1".data, "T1".data, "text".data, [], none, none⟩,
       ⟨"d2".data, "T2".data, "text".data, [], none, some "u".data⟩] []
      (by decide)).2.1⟩

/-! ## Claims C7 and C9 — chunk selection and the in-place sort -/

/-- The exact rational 1/5, standing in for the double `0.2` (only the
relative order of scores matters to the comparator). -/
def score02 : ℚ := ⟨1, 5, by norm_num, by norm_num⟩

/-- The exact rational 9/10, standing in for the double `0.9`. -/
def score09 : ℚ := ⟨9, 10, by norm_num, by norm_num⟩

/-- The exact rational 1/2, standing in for the double `0.5`. -/
def score05 : ℚ := ⟨1, 2, by norm_num, by norm_num⟩

/-- Example chunk with score 0.2, not marked relevant. -/
def exChunkLow : RChunk := ⟨"low".data, false, some score02⟩

/-- Example chunk with score 0.9, not marked relevant. -/
def exChunkHigh : RChunk := ⟨"high".data, false, some score09⟩

/-- Example chunk with score 0.5, not marked relevant. -/
def exChunkMid : RChunk := ⟨"mid".data, false, some score05⟩

/-- Example hit whose chunks have scores `[0.2, 0.9, 0.5]`, none marked
relevant. -/
def exHit : Hit :=
  ⟨"doc1".data, "Title".data, "document".data,
    [exChunkLow, exChunkHigh, exChunkMid], none, none⟩

/-- **C7.** For every hit, the assembler selects the relevant-marked
chunks; when none is marked it falls back to all chunks sorted by score
descending — a permutation of the chunks, non-increasing in score, and
stable (each equal-score class keeps its original order) — and in either
case at most the first 3 selected chunks are used.  On the concrete hit
with scores `[0.2, 0.9, 0.5]` the selection is `[0.9, 0.5, 0.2]`. -/
theorem chunk_selection_spec :
    (∀ h : Hit,
      (h.chunks.filter (fun c => c.isRelevant) ≠ [] →
        selectedChunks h = (h.chunks.filter (fun c => c.isRelevant)).take 3)
      ∧ (h.chunks.filter (fun c => c.isRelevant) = [] →
          selectedChunks h = (sortByScoreDesc h.chunks).take 3
          ∧ (sortByScoreDesc h.chunks).Perm h.chunks
          ∧ (sortByScoreDesc h.chunks).Pairwise (fun a b => scoreVal b ≤ scoreVal a)
          ∧ ∀ k : ℚ,
              (sortByScoreDesc h.chunks).filter (fun c => decide (scoreVal c = k))
                = h.chunks.filter (fun c => decide (scoreVal c = k))))
    ∧ selectedChunks exHit = [exChunkHigh, exChunkMid, exChunkLow] := by
  constructor
  · intro h
    constructor
    · intro hrel
      simp [selectedChunks, selectChunks, List.isEmpty_iff, hrel]
    · intro hrel
      exact ⟨by simp [selectedChunks, selectChunks, List.isEmpty_iff, hrel],
        sortByScoreDesc_perm _, sortByScoreDesc_pairwise _,
        fun k => filter_sortByScoreDesc k _⟩
  · decide

/-- Witness for C7: the fallback case discharged on the concrete hit. -/
theorem chunk_selection_spec_witness :
    exHit.chunks.filter (fun c => c.isRelevant) = []
    ∧ selectedChunks exHit = (sortByScoreDesc exHit.chunks).take 3
    ∧ (sortByScoreDesc exHit.chunks).Perm exHit.chunks :=
  ⟨by decide,
    ((chunk_selection_spec.1 exHit).2 (by decide)).1,
    ((chunk_selection_spec.1 exHit).2 (by decide)).2.1⟩

/-- **C9 is violated by the code**: the fallback branch calls
`Array.prototype.sort`, which reorders `result.chunks` *in place*.  On a
one-hit input whose chunks (scores `[0.2, 0.9, 0.5]`) have no relevant
mark, the hits array observed after assembly carries the chunks reordered
to `[0.9, 0.5, 0.2]` — it is not the input array, refuting "leaves every
input hit unchanged". -/
theorem assemble_mutates_input_hits :
    (assemble [exHit] []).2.2 =
      [{ exHit with chunks := [exChunkHigh, exChunkMid, exChunkLow] }]
    ∧ (assemble [exHit] []).2.2 ≠ [exHit] := by
  constructor
  · decide
  · decide

/-! ## Claim C2 — encoder/decoder round trip

Helper lemmas about the scanning primitives, then the per-line round trip,
then the heading search on `body ++ "\n\n" ++ "## Sources\n\n" ++ block`. -/

lemma dropWhile_append_pos {p : Char → Bool} {a b : List Char}
    (h : a.dropWhile p ≠ []) :
    (a ++ b).dropWhile p = a.dropWhile p ++ b := by
  rw [List.dropWhile_append, if_neg]
  simpa using h

lemma dropWhile_append_nilcase {p : Char → Bool} {a b : List Char}
    (h : a.dropWhile p = []) :
    (a ++ b).dropWhile p = b.dropWhile p := by
  rw [List.dropWhile_append, if_pos]
  simp [h]

lemma takeWhile_append_pos {p : Char → Bool} {a b : List Char}
    (h : a.dropWhile p ≠ []) :
    (a ++ b).takeWhile p = a.takeWhile p := by
  rw [List.takeWhile_append, if_neg]
  have h2 := congrArg List.length (List.takeWhile_append_dropWhile p a)
  simp only [List.length_append] at h2
  have h3 : 0 < (a.dropWhile p).length := List.length_pos.2 h
  omega

lemma takeWhile_eq_self_of_dropWhile_nil {p : Char → Bool} {a : List Char}
    (h : a.dropWhile p = []) : a.takeWhile p = a := by
  have h2 := List.takeWhile_append_dropWhile p a
  rw [h] at h2
  simpa using h2

lemma length_dropWhile_le (p : Char → Bool) (l : List Char) :
    (l.dropWhile p).length ≤ l.length := by
  have h2 := congrArg List.length (List.takeWhile_append_dropWhile p l)
  simp only [List.length_append] at h2
  omega

lemma takeWhile_append_nilcase {p : Char → Bool} {a b : List Char}
    (h : a.dropWhile p = []) :
    (a ++ b).takeWhile p = a ++ b.takeWhile p := by
  have hself := takeWhile_eq_self_of_dropWhile_nil h
  rw [List.takeWhile_append, if_pos (by rw [hself])]

lemma takeWhile_append_delim {p : Char → Bool} {a b : List Char} {x : Char}
    (ha : ∀ c ∈ a, p c = true) (hx : p x = false) :
    (a ++ x :: b).takeWhile p = a := by
  rw [takeWhile_append_nilcase (List.dropWhile_eq_nil_iff.2 ha)]
  simp [List.takeWhile_cons, hx]

lemma dropWhile_append_delim {p : Char → Bool} {a b : List Char} {x : Char}
    (ha : ∀ c ∈ a, p c = true) (hx : p x = false) :
    (a ++ x :: b).dropWhile p = x :: b := by
  rw [dropWhile_append_nilcase (List.dropWhile_eq_nil_iff.2 ha)]
  simp [List.dropWhile_cons, hx]

lemma dropWhile_eq_self_of_head {p : Char → Bool} {l : List Char}
    (h : ∀ c, l.head? = some c → p c = false) : l.dropWhile p = l := by
  cases l with
  | nil => rfl
  | cons c t => simp [List.dropWhile_cons, h c rfl]

lemma jsTrim_eq_self {l : List Char}
    (h1 : ∀ c, l.head? = some c → isJsWs c = false)
    (h2 : ∀ c, l.getLast? = some c → isJsWs c = false) : jsTrim l = l := by
  unfold jsTrim
  rw [dropWhile_eq_self_of_head h1]
  rw [dropWhile_eq_self_of_head
    (fun c hc => h2 c (by rwa [List.head?_reverse] at hc))]
  exact List.reverse_reverse l

lemma jsTrim_cons_ws {c : Char} {l : List Char} (h : isJsWs c = true) :
    jsTrim (c :: l) = jsTrim l := by
  simp [jsTrim, List.dropWhile_cons, h]

lemma jsTrim_nil : jsTrim [] = [] := rfl

lemma jsTrim_length_le (l : List Char) : (jsTrim l).length ≤ l.length := by
  unfold jsTrim
  simp only [List.length_reverse]
  calc ((l.dropWhile isJsWs).reverse.dropWhile isJsWs).length
      ≤ (l.dropWhile isJsWs).reverse.length := length_dropWhile_le _ _
    _ = (l.dropWhile isJsWs).length := List.length_reverse _
    _ ≤ l.length := length_dropWhile_le _ _

lemma head_not_ws_of_trimmed {l : List Char} (h : jsTrim l = l) :
    ∀ c, l.head? = some c → isJsWs c = false := by
  intro c hc
  cases l with
  | nil => cases hc
  | cons x t =>
    simp only [List.head?_cons, Option.some.injEq] at hc
    subst hc
    by_contra hws
    rw [Bool.not_eq_false] at hws
    rw [jsTrim_cons_ws hws] at h
    have h1 : (jsTrim t).length ≤ t.length := jsTrim_length_le t
    have h2 := congrArg List.length h
    simp only [List.length_cons] at h2
    omega

lemma splitOnChar_ne_nil (sep : Char) (l : List Char) : splitOnChar sep l ≠ [] := by
  induction l with
  | nil => simp [splitOnChar]
  | cons c rest ih =>
    rw [splitOnChar]
    split
    · simp
    · rcases hs : splitOnChar sep rest with _ | ⟨p, ps⟩
      · exact absurd hs ih
      · simp

lemma splitOnChar_no_sep {sep : Char} {l : List Char} (h : sep ∉ l) :
    splitOnChar sep l = [l] := by
  induction l with
  | nil => rfl
  | cons c rest ih =>
    rw [splitOnChar]
    have hc : ¬ c = sep := fun hcc => h (hcc ▸ List.mem_cons_self c rest)
    rw [if_neg hc, ih (fun hm => h (List.mem_cons_of_mem c hm))]

lemma splitOnChar_append {sep : Char} {a b : List Char} (h : sep ∉ a) :
    splitOnChar sep (a ++ sep :: b) = a :: splitOnChar sep b := by
  induction a with
  | nil =>
    rw [List.nil_append, splitOnChar, if_pos rfl]
  | cons c a' ih =>
    rw [List.cons_append, splitOnChar]
    have hc : ¬ c = sep := fun hcc => h (hcc ▸ List.mem_cons_self c a')
    rw [if_neg hc, ih (fun hm => h (List.mem_cons_of_mem c hm))]

/-- Well-formedness of one collection name for the round trip: non-empty,
already trimmed, and free of the delimiter characters. -/
def GoodCollName (s : List Char) : Prop :=
  s ≠ [] ∧ jsTrim s = s ∧ ∀ c ∈ s, c ≠ ')' ∧ c ≠ ',' ∧ c ≠ '\n'

lemma split_join_colls (colls : List (List Char))
    (h : ∀ s ∈ colls, GoodCollName s) :
    ((splitOnChar ',' (joinWith [',', ' '] colls)).map jsTrim).filter
      (fun s => !s.isEmpty) = colls := by
  induction colls with
  | nil => simp [joinWith, splitOnChar, jsTrim_nil]
  | cons x xs ih =>
    obtain ⟨hx0, hxt, hxc⟩ := h x (List.mem_cons_self x xs)
    have hxcomma : ',' ∉ x := fun hm => (hxc ',' hm).2.1 rfl
    cases xs with
    | nil =>
      rw [show joinWith [',', ' '] [x] = x from rfl, splitOnChar_no_sep hxcomma]
      simp only [List.map_cons, List.map_nil, hxt]
      rw [List.filter_cons_of_pos (by simpa using hx0)]
      rfl
    | cons y ys =>
      have hjoin : joinWith [',', ' '] (x :: y :: ys) =
          x ++ ',' :: (' ' :: joinWith [',', ' '] (y :: ys)) := by
        rw [joinWith]
        simp
      obtain ⟨p, ps, hps⟩ : ∃ p ps,
          splitOnChar ',' (joinWith [',', ' '] (y :: ys)) = p :: ps := by
        rcases hs : splitOnChar ',' (joinWith [',', ' '] (y :: ys)) with _ | ⟨p, ps⟩
        · exact absurd hs (splitOnChar_ne_nil ',' _)
        · exact ⟨p, ps, rfl⟩
      have hsp : splitOnChar ',' (' ' :: joinWith [',', ' '] (y :: ys)) =
          (' ' :: p) :: ps := by
        rw [splitOnChar, if_neg (by decide), hps]
      rw [hjoin, splitOnChar_append hxcomma, hsp]
      have ihh := ih (fun s hs => h s (List.mem_cons_of_mem x hs))
      rw [hps] at ihh
      rw [List.map_cons, List.map_cons, jsTrim_cons_ws (by decide), hxt]
      rw [List.filter_cons_of_pos (by simpa using hx0), ← List.map_cons]
      rw [ihh]

lemma mem_joinWith {sep : List Char} {xs : List (List Char)} {c : Char}
    (hc : c ∈ joinWith sep xs) : (∃ x ∈ xs, c ∈ x) ∨ c ∈ sep := by
  induction xs with
  | nil => simp [joinWith] at hc
  | cons x ys ih =>
    cases ys with
    | nil =>
      rw [joinWith] at hc
      exact Or.inl ⟨x, List.mem_cons_self x [], hc⟩
    | cons y ys' =>
      rw [joinWith] at hc
      rcases List.mem_append.1 hc with h1 | h1
      · rcases List.mem_append.1 h1 with h2 | h2
        · exact Or.inl ⟨x, List.mem_cons_self x _, h2⟩
        · exact Or.inr h2
      · rcases ih h1 with ⟨z, hz, hcz⟩ | h2
        · exact Or.inl ⟨z, List.mem_cons_of_mem x hz, hcz⟩
        · exact Or.inr h2

lemma joinWith_ne_nil {sep : List Char} {x : List Char} {xs : List (List Char)}
    (hx : x ≠ []) : joinWith sep (x :: xs) ≠ [] := by
  cases xs with
  | nil => simpa [joinWith] using hx
  | cons y ys =>
    rw [joinWith]
    simp [hx]

lemma no_rparen_in_join {colls : List (List Char)}
    (h : ∀ s ∈ colls, GoodCollName s) : ∀ c ∈ joinWith [',', ' '] colls,
      (c != ')') = true := by
  intro c hc
  rcases mem_joinWith hc with ⟨x, hx, hcx⟩ | h2
  · have := ((h x hx).2.2 c hcx).1
    simpa using this
  · have h3 : c = ',' ∨ c = ' ' := by simpa using h2
    rcases h3 with rfl | rfl <;> decide

lemma parseCollections_canonical (J : List Char) (jh : Char) (jt : List Char)
    (hJ : J = jh :: jt) (hjh : isJsWs jh = false)
    (hnp : ∀ c ∈ J, (c != ')') = true) :
    parseCollections (' ' :: (collLit ++ (' ' :: (J ++ [')'])))) =
      ((splitOnChar ',' J).map jsTrim).filter (fun s => !s.isEmpty) := by
  have hshape : collLit ++ (' ' :: (J ++ [')'])) =
      '(' :: (['C', 'o', 'l', 'l', 'e', 'c', 't', 'i', 'o', 'n', 's', ':'] ++
        (' ' :: (J ++ [')']))) := rfl
  have ha : (' ' :: (collLit ++ (' ' :: (J ++ [')'])))).dropWhile isJsWs =
      collLit ++ (' ' :: (J ++ [')'])) := by
    rw [List.dropWhile_cons, if_pos (by decide), hshape, List.dropWhile_cons,
      if_neg (by decide)]
  have hpre : collLit.isPrefixOf (collLit ++ (' ' :: (J ++ [')']))) = true :=
    List.isPrefixOf_iff_prefix.2 (List.prefix_append _ _)
  simp only [parseCollections]
  rw [ha, hpre]
  simp only [if_true]
  rw [List.drop_left]
  have hb : (' ' :: (J ++ [')'])).dropWhile isJsWs = J ++ [')'] := by
    rw [List.dropWhile_cons, if_pos (by decide), hJ, List.cons_append,
      List.dropWhile_cons, if_neg (by simp [hjh])]
  rw [hb]
  have hc : (J ++ [')']).takeWhile (fun x => x != ')') = J := by
    have : J ++ [')'] = J ++ ')' :: [] := rfl
    rw [this, takeWhile_append_delim hnp (by decide)]
  have hd : (J ++ [')']).dropWhile (fun x => x != ')') = ')' :: [] := by
    have : J ++ [')'] = J ++ ')' :: [] := rfl
    rw [this, dropWhile_append_delim hnp (by decide)]
  rw [hc, hd]
  rw [if_neg (by simp [hJ])]
  rfl

lemma parseCollections_encode (colls : List (List Char))
    (h : ∀ s ∈ colls, GoodCollName s) :
    parseCollections
      (if colls.isEmpty then []
       else [' '] ++ collLit ++ [' '] ++ joinWith [',', ' '] colls ++ [')']) =
      colls := by
  cases colls with
  | nil => rfl
  | cons x xs =>
    rw [if_neg (by simp)]
    obtain ⟨hx0, hxt, hxc⟩ := h x (List.mem_cons_self x xs)
    obtain ⟨xh, xt, hxht⟩ : ∃ xh xt, x = xh :: xt := by
      cases x with
      | nil => exact absurd rfl hx0
      | cons a b => exact ⟨a, b, rfl⟩
    have hxh : isJsWs xh = false :=
      head_not_ws_of_trimmed hxt xh (by rw [hxht]; rfl)
    obtain ⟨jt, hj⟩ : ∃ jt, joinWith [',', ' '] (x :: xs) = xh :: jt := by
      cases xs with
      | nil => exact ⟨xt, by rw [joinWith, hxht]⟩
      | cons y ys =>
        refine ⟨xt ++ [',', ' '] ++ joinWith [',', ' '] (y :: ys), ?_⟩
        rw [joinWith, hxht]
        simp
    have hshape2 : [' '] ++ collLit ++ [' '] ++ joinWith [',', ' '] (x :: xs) ++ [')'] =
        ' ' :: (collLit ++ (' ' :: (joinWith [',', ' '] (x :: xs) ++ [')']))) := by
      simp
    rw [hshape2,
      parseCollections_canonical (joinWith [',', ' '] (x :: xs)) xh jt hj hxh
        (no_rparen_in_join h),
      split_join_colls (x :: xs) h]

/-- Well-formedness of one descriptor for the round trip: non-empty title
and link free of `]`, `)` and newline characters, the internal-link fields
determined by the link text, and well-formed collection names. -/
def GoodDescriptor (d : SourceItem) : Prop :=
  d.title ≠ [] ∧ d.url ≠ [] ∧
  (∀ c ∈ d.title, c ≠ ']' ∧ c ≠ ')' ∧ c ≠ '\n') ∧
  (∀ c ∈ d.url, c ≠ ']' ∧ c ≠ ')' ∧ c ≠ '\n') ∧
  d.isDocumentLink = docScheme.isPrefixOf d.url ∧
  d.documentId = (if docScheme.isPrefixOf d.url then some (d.url.drop 6) else none) ∧
  ∀ s ∈ d.collections, GoodCollName s

lemma parseSourceLine_encodeLine (d : SourceItem) (hd : GoodDescriptor d) :
    parseSourceLine (encodeLine d) = some d := by
  obtain ⟨ht0, hu0, htc, huc, hflag, hdoc, hcolls⟩ := hd
  obtain ⟨r0, rt, hr⟩ : ∃ r0 rt, renderNat d.number = r0 :: rt := by
    cases hrr : renderNat d.number with
    | nil => exact absurd hrr (renderNat_ne_nil d.number)
    | cons a b => exact ⟨a, b, rfl⟩
  have hrd : ∀ c ∈ renderNat d.number, isDigitCh c = true :=
    renderNat_all_digits d.number
  have hr0d : isDigitCh r0 = true := hrd r0 (by rw [hr]; exact List.mem_cons_self r0 rt)
  have hline : encodeLine d = renderNat d.number ++
      '.' :: (' ' :: ('[' :: (d.title ++
        ']' :: ('(' :: (d.url ++ ')' :: encodeColl d.collections))))) := by
    simp [encodeLine]
  have hl1 : (encodeLine d).dropWhile isJsWs = encodeLine d := by
    rw [hline, hr, List.cons_append, List.dropWhile_cons,
      if_neg (by simp [isJsWs_of_isDigitCh hr0d])]
  have hds : (encodeLine d).takeWhile isDigitCh = renderNat d.number := by
    rw [hline]
    exact takeWhile_append_delim hrd (by decide)
  have hdrop1 : (encodeLine d).dropWhile isDigitCh =
      '.' :: (' ' :: ('[' :: (d.title ++
        ']' :: ('(' :: (d.url ++ ')' :: encodeColl d.collections))))) := by
    rw [hline]
    exact dropWhile_append_delim hrd (by decide)
  have hdsne : (renderNat d.number).isEmpty = false := by
    rw [hr]
    rfl
  have hl4 : ((' ' :: ('[' :: (d.title ++
      ']' :: ('(' :: (d.url ++ ')' :: encodeColl d.collections))))).dropWhile isJsWs)
      = '[' :: (d.title ++
        ']' :: ('(' :: (d.url ++ ')' :: encodeColl d.collections))) := by
    rw [List.dropWhile_cons, if_pos (by decide), List.dropWhile_cons,
      if_neg (by decide)]
  have htch : ∀ c ∈ d.title, (c != ']') = true := by
    intro c hc
    simpa using (htc c hc).1
  have ht : (d.title ++
      ']' :: ('(' :: (d.url ++ ')' :: encodeColl d.collections))).takeWhile
        (fun x => x != ']') = d.title :=
    takeWhile_append_delim htch (by decide)
  have htdrop : (d.title ++
      ']' :: ('(' :: (d.url ++ ')' :: encodeColl d.collections))).dropWhile
        (fun x => x != ']') =
      ']' :: ('(' :: (d.url ++ ')' :: encodeColl d.collections)) :=
    dropWhile_append_delim htch (by decide)
  have htne : d.title.isEmpty = false := by
    obtain ⟨a, b, hab⟩ : ∃ a b, d.title = a :: b := by
      cases hab : d.title with
      | nil => exact absurd hab ht0
      | cons a b => exact ⟨a, b, rfl⟩
    rw [hab]
    rfl
  have huch : ∀ c ∈ d.url, (c != ')') = true := by
    intro c hc
    simpa using (huc c hc).2.1
  have hu : (d.url ++ ')' :: encodeColl d.collections).takeWhile
      (fun x => x != ')') = d.url :=
    takeWhile_append_delim huch (by decide)
  have hudrop : (d.url ++ ')' :: encodeColl d.collections).dropWhile
      (fun x => x != ')') = ')' :: encodeColl d.collections :=
    dropWhile_append_delim huch (by decide)
  have hune : d.url.isEmpty = false := by
    obtain ⟨a, b, hab⟩ : ∃ a b, d.url = a :: b := by
      cases hab : d.url with
      | nil => exact absurd hab hu0
      | cons a b => exact ⟨a, b, rfl⟩
    rw [hab]
    rfl
  have hpc : parseCollections (encodeColl d.collections) = d.collections := by
    unfold encodeColl
    exact parseCollections_encode d.collections hcolls
  simp only [parseSourceLine, hl1, hds, hdrop1, hdsne, Bool.false_eq_true,
    if_false, hl4, ht, htdrop, htne, hu, hudrop, hune, hpc,
    valOfDigits_renderNat]
  simp only [and_self, if_true]
  rw [← hdoc, ← hflag]

lemma encodeLine_cons (d : SourceItem) :
    ∃ r0 rest, encodeLine d = r0 :: rest ∧ isDigitCh r0 = true := by
  obtain ⟨r0, rt, hr⟩ : ∃ r0 rt, renderNat d.number = r0 :: rt := by
    cases hrr : renderNat d.number with
    | nil => exact absurd hrr (renderNat_ne_nil d.number)
    | cons a b => exact ⟨a, b, rfl⟩
  refine ⟨r0, rt ++ ['.', ' ', '['] ++ d.title ++ [']', '('] ++ d.url ++ [')'] ++
    encodeColl d.collections, ?_, renderNat_all_digits d.number r0
      (by rw [hr]; exact List.mem_cons_self r0 rt)⟩
  rw [encodeLine, hr]
  simp

lemma encodeLine_getLast (d : SourceItem) :
    (encodeLine d).getLast? = some ')' := by
  rw [encodeLine]
  by_cases hc : d.collections.isEmpty
  · rw [encodeColl, if_pos hc]
    have hshape : renderNat d.number ++ ['.', ' ', '['] ++ d.title ++ [']', '('] ++
        d.url ++ [')'] ++ ([] : List Char) =
        (renderNat d.number ++ ['.', ' ', '['] ++ d.title ++ [']', '('] ++ d.url) ++
          [')'] := by
      simp
    rw [hshape, List.getLast?_append]
    rfl
  · rw [encodeColl, if_neg hc]
    have hshape : renderNat d.number ++ ['.', ' ', '['] ++ d.title ++ [']', '('] ++
        d.url ++ [')'] ++
        ([' '] ++ collLit ++ [' '] ++ joinWith [',', ' '] d.collections ++ [')']) =
        (renderNat d.number ++ ['.', ' ', '['] ++ d.title ++ [']', '('] ++ d.url ++
          [')'] ++ [' '] ++ collLit ++ [' '] ++ joinWith [',', ' '] d.collections) ++
          [')'] := by
      simp
    rw [hshape, List.getLast?_append]
    rfl

lemma encodeLine_trim_self (d : SourceItem) :
    jsTrim (encodeLine d) = encodeLine d := by
  obtain ⟨r0, rest, hcons, hr0⟩ := encodeLine_cons d
  refine jsTrim_eq_self ?_ ?_
  · intro c hc
    rw [hcons] at hc
    simp only [List.head?_cons, Option.some.injEq] at hc
    subst hc
    exact isJsWs_of_isDigitCh hr0
  · intro c hc
    rw [encodeLine_getLast d] at hc
    simp only [Option.some.injEq] at hc
    subst hc
    decide

lemma encodeLine_isEmpty (d : SourceItem) : (encodeLine d).isEmpty = false := by
  obtain ⟨r0, rest, hcons, _⟩ := encodeLine_cons d
  rw [hcons]
  rfl

lemma newline_not_mem_encodeLine {d : SourceItem} (hd : GoodDescriptor d) :
    '\n' ∉ encodeLine d := by
  obtain ⟨_, _, htc, huc, _, _, hcolls⟩ := hd
  intro hmem
  rw [encodeLine] at hmem
  simp only [List.append_assoc, List.mem_append] at hmem
  rcases hmem with h | h | h | h | h | h | h
  · have := renderNat_all_digits d.number '\n' h
    simp [isDigitCh] at this
  · simp at h
  · exact (htc '\n' h).2.2 rfl
  · simp at h
  · exact (huc '\n' h).2.2 rfl
  · simp at h
  · rw [encodeColl] at h
    split at h
    · simp at h
    · simp only [List.append_assoc, List.mem_append] at h
      rcases h with h | h | h | h | h
      · simp at h
      · simp [collLit] at h
      · simp at h
      · rcases mem_joinWith h with ⟨x, hx, hcx⟩ | h2
        · exact ((hcolls x hx).2.2 '\n' hcx).2.2 rfl
        · simp at h2
      · simp at h

lemma splitOnChar_joinWith {sep : Char} {xs : List (List Char)}
    (hx : ∀ x ∈ xs, sep ∉ x) (hne : xs ≠ []) :
    splitOnChar sep (joinWith [sep] xs) = xs := by
  induction xs with
  | nil => exact absurd rfl hne
  | cons x ys ih =>
    cases ys with
    | nil =>
      rw [joinWith]
      exact splitOnChar_no_sep (hx x (List.mem_cons_self x []))
    | cons y ys' =>
      have hjoin : joinWith [sep] (x :: y :: ys') =
          x ++ sep :: joinWith [sep] (y :: ys') := by
        rw [joinWith]
        simp
      rw [hjoin, splitOnChar_append (hx x (List.mem_cons_self x _)),
        ih (fun z hz => hx z (List.mem_cons_of_mem x hz)) (by simp)]

lemma joinWith_head? {sep : List Char} {x : List Char} {xs : List (List Char)}
    (hx : x ≠ []) : (joinWith sep (x :: xs)).head? = x.head? := by
  cases xs with
  | nil => rw [joinWith]
  | cons y ys =>
    rw [joinWith]
    obtain ⟨a, b, hab⟩ : ∃ a b, x = a :: b := by
      cases hab : x with
      | nil => exact absurd hab hx
      | cons a b => exact ⟨a, b, rfl⟩
    rw [hab]
    simp

lemma joinWith_getLast_rparen {sep : List Char} {xs : List (List Char)}
    (h : ∀ x ∈ xs, x.getLast? = some ')') (hne : xs ≠ []) :
    (joinWith sep xs).getLast? = some ')' := by
  induction xs with
  | nil => exact absurd rfl hne
  | cons x ys ih =>
    cases ys with
    | nil =>
      rw [joinWith]
      exact h x (List.mem_cons_self x [])
    | cons y ys' =>
      rw [joinWith]
      rw [List.getLast?_append, List.getLast?_append,
        ih (fun z hz => h z (List.mem_cons_of_mem x hz)) (by simp)]
      rfl

lemma filterMap_parse_encode (D : List SourceItem)
    (hD : ∀ d ∈ D, GoodDescriptor d) :
    (D.map encodeLine).filterMap parseSourceLine = D := by
  induction D with
  | nil => rfl
  | cons d D' ih =>
    simp only [List.map_cons, List.filterMap_cons,
      parseSourceLine_encodeLine d (hD d (List.mem_cons_self d D')),
      ih (fun x hx => hD x (List.mem_cons_of_mem d hx))]

lemma sources_of_encodeBlock (D : List SourceItem)
    (hD : ∀ d ∈ D, GoodDescriptor d) :
    parseSourceLines (splitOnChar '\n' (jsTrim (encodeBlock D))) = D := by
  cases D with
  | nil => rfl
  | cons d0 D' =>
    have hlines : ∀ x ∈ (d0 :: D').map encodeLine, '\n' ∉ x := by
      intro x hx
      simp only [List.mem_map] at hx
      obtain ⟨d, hd, rfl⟩ := hx
      exact newline_not_mem_encodeLine (hD d hd)
    have htrim : jsTrim (encodeBlock (d0 :: D')) = encodeBlock (d0 :: D') := by
      refine jsTrim_eq_self ?_ ?_
      · intro c hc
        obtain ⟨r0, rest, hcons, hr0⟩ := encodeLine_cons d0
        rw [encodeBlock, List.map_cons,
          joinWith_head? (by rw [hcons]; simp), hcons] at hc
        simp only [List.head?_cons, Option.some.injEq] at hc
        subst hc
        exact isJsWs_of_isDigitCh hr0
      · intro c hc
        rw [encodeBlock,
          joinWith_getLast_rparen
            (by
              intro x hx
              simp only [List.mem_map] at hx
              obtain ⟨d, _, rfl⟩ := hx
              exact encodeLine_getLast d)
            (by simp)] at hc
        simp only [Option.some.injEq] at hc
        subst hc
        decide
    rw [htrim, encodeBlock, splitOnChar_joinWith hlines (by simp)]
    unfold parseSourceLines
    have hfilter : ((d0 :: D').map encodeLine).filter
        (fun line => !(jsTrim line).isEmpty) = (d0 :: D').map encodeLine := by
      apply List.filter_eq_self.2
      intro x hx
      simp only [List.mem_map] at hx
      obtain ⟨d, _, rfl⟩ := hx
      rw [encodeLine_trim_self d, encodeLine_isEmpty d]
      rfl
    rw [hfilter, filterMap_parse_encode (d0 :: D') hD]

lemma headingMatch_headingBlock (enc : List Char)
    (henc : enc = [] ∨ ∃ c t, enc = c :: t ∧ isJsWs c = false) :
    headingMatch (headingBlock ++ enc) = some enc := by
  rcases henc with rfl | ⟨c, t, rfl, hcw⟩
  · decide
  · show headingMatch ('#' :: '#' :: (' ' :: ('S' :: 'o' :: 'u' :: 'r' :: 'c' ::
      'e' :: 's' :: ('\n' :: '\n' :: (c :: t))))) = some (c :: t)
    simp only [headingMatch]
    rw [if_pos ⟨trivial, trivial⟩]
    simp only [headingCore]
    have hs2 : (' ' :: ('S' :: 'o' :: 'u' :: 'r' :: 'c' :: 'e' :: 's' ::
        ('\n' :: '\n' :: (c :: t)))).dropWhile isJsWs =
        'S' :: 'o' :: 'u' :: 'r' :: 'c' :: 'e' :: 's' :: ('\n' :: '\n' :: (c :: t)) := by
      rw [List.dropWhile_cons, if_pos (by decide), List.dropWhile_cons,
        if_neg (by decide)]
    rw [hs2]
    have htk : ('S' :: 'o' :: 'u' :: 'r' :: 'c' :: 'e' :: 's' ::
        ('\n' :: '\n' :: (c :: t))).take 7 = ['S', 'o', 'u', 'r', 'c', 'e', 's'] := rfl
    rw [htk, if_pos (by decide)]
    have hdp : ('S' :: 'o' :: 'u' :: 'r' :: 'c' :: 'e' :: 's' ::
        ('\n' :: '\n' :: (c :: t))).drop 7 = '\n' :: '\n' :: (c :: t) := rfl
    rw [hdp]
    have hrun : ('\n' :: '\n' :: (c :: t)).takeWhile isJsWs = ['\n', '\n'] := by
      rw [List.takeWhile_cons, if_pos (by decide), List.takeWhile_cons,
        if_pos (by decide), List.takeWhile_cons, if_neg (by simp [hcw])]
    rw [hrun, if_pos (by decide)]
    rw [show (['\n', '\n'] : List Char).length -
        ((['\n', '\n'] : List Char).reverse.takeWhile (fun x => x != '\n')).length
        = 2 from by decide]
    rfl

lemma sources_check_hash_head (w : List Char) :
    ¬ ((('#' :: w).take 7).map asciiLower = sourcesWord) := by
  intro heq
  have h1 : ('#' :: w).take 7 = '#' :: w.take 6 := rfl
  rw [h1, List.map_cons] at heq
  have h2 : asciiLower '#' = 's' := by
    have := congrArg List.head? heq
    simpa [sourcesWord] using this
  exact absurd h2 (by decide)

lemma headingCore_append_hash (v w : List Char) (h : headingCore v = none) :
    headingCore (v ++ '#' :: w) = none := by
  by_cases hall : v.dropWhile isJsWs = []
  · have hs2 : (v ++ '#' :: w).dropWhile isJsWs = '#' :: w := by
      rw [dropWhile_append_nilcase hall, List.dropWhile_cons, if_neg (by decide)]
    simp only [headingCore]
    rw [hs2, if_neg (sources_check_hash_head w)]
  · have hs2 : (v ++ '#' :: w).dropWhile isJsWs = v.dropWhile isJsWs ++ '#' :: w :=
      dropWhile_append_pos hall
    by_cases hlen : 7 ≤ (v.dropWhile isJsWs).length
    · have htke : (v.dropWhile isJsWs ++ '#' :: w).take 7 =
          (v.dropWhile isJsWs).take 7 := by
        rw [List.take_append_eq_append_take, show 7 - (v.dropWhile isJsWs).length = 0
          from by omega]
        simp
      by_cases hcheck : ((v.dropWhile isJsWs).take 7).map asciiLower = sourcesWord
      · have hdrp : (v.dropWhile isJsWs ++ '#' :: w).drop 7 =
            (v.dropWhile isJsWs).drop 7 ++ '#' :: w := by
          rw [List.drop_append_eq_append_drop,
            show 7 - (v.dropWhile isJsWs).length = 0 from by omega]
          simp
        have hnin : '\n' ∉ ((v.dropWhile isJsWs).drop 7).takeWhile isJsWs := by
          intro hmem
          simp only [headingCore] at h
          rw [if_pos hcheck, if_pos hmem] at h
          cases h
        by_cases hall7 : ((v.dropWhile isJsWs).drop 7).dropWhile isJsWs = []
        · have hrun : ((v.dropWhile isJsWs).drop 7 ++ '#' :: w).takeWhile isJsWs =
              (v.dropWhile isJsWs).drop 7 := by
            rw [takeWhile_append_nilcase hall7, List.takeWhile_cons,
              if_neg (by decide), List.append_nil]
          have hnin' : '\n' ∉ (v.dropWhile isJsWs).drop 7 := by
            rwa [takeWhile_eq_self_of_dropWhile_nil hall7] at hnin
          simp only [headingCore]
          rw [hs2, htke, if_pos hcheck, hdrp, hrun, if_neg hnin']
        · have hrun : ((v.dropWhile isJsWs).drop 7 ++ '#' :: w).takeWhile isJsWs =
              ((v.dropWhile isJsWs).drop 7).takeWhile isJsWs :=
            takeWhile_append_pos hall7
          simp only [headingCore]
          rw [hs2, htke, if_pos hcheck, hdrp, hrun, if_neg hnin]
      · simp only [headingCore]
        rw [hs2, htke, if_neg hcheck]
    · have hfalse :
          ¬ (((v.dropWhile isJsWs ++ '#' :: w).take 7).map asciiLower = sourcesWord) := by
        intro heq
        have hmem : '#' ∈ (v.dropWhile isJsWs ++ '#' :: w).take 7 := by
          rw [List.take_append_eq_append_take,
            List.take_of_length_le (by omega)]
          refine List.mem_append.2 (Or.inr ?_)
          have h1 : 7 - (v.dropWhile isJsWs).length =
              (7 - (v.dropWhile isJsWs).length - 1) + 1 := by omega
          rw [h1]
          exact List.mem_cons_self '#' _
        have h2 : asciiLower '#' ∈ sourcesWord := by
          rw [← heq]
          exact List.mem_map_of_mem asciiLower hmem
        exact absurd h2 (by decide)
      simp only [headingCore]
      rw [hs2, if_neg hfalse]

lemma headingMatch_append_blocked (v w : List Char) (hv : v ≠ [])
    (h : headingMatch v = none) :
    headingMatch (v ++ '#' :: '#' :: w) = none := by
  cases v with
  | nil => exact absurd rfl hv
  | cons a v1 =>
    cases v1 with
    | nil =>
      simp only [List.cons_append, List.nil_append]
      by_cases ha : a = '#'
      · subst ha
        simp only [headingMatch]
        rw [if_pos ⟨trivial, trivial⟩]
        have hs2 : ('#' :: w).dropWhile isJsWs = '#' :: w := by
          rw [List.dropWhile_cons, if_neg (by decide)]
        simp only [headingCore]
        rw [hs2, if_neg (sources_check_hash_head w)]
      · simp only [headingMatch]
        rw [if_neg (fun hand => ha hand.1)]
    | cons b v2 =>
      simp only [List.cons_append]
      simp only [headingMatch] at h ⊢
      by_cases hab : a = '#' ∧ b = '#'
      · rw [if_pos hab] at h ⊢
        exact headingCore_append_hash v2 ('#' :: w) h
      · rw [if_neg hab]

/-- **C2, amended.**  For every descriptor list `D` whose titles and links
are non-empty and contain no `]`, `)` or newline characters, whose
`isDocumentLink`/`documentId` fields are the ones determined by the link
text (the flag iff the link starts with `doc://`, the id the remainder),
and whose collection names are non-empty, carry no leading or trailing
whitespace and contain no `)`, comma or newline — and for every body after
which (followed by the blank line) the Sources-heading pattern matches at
no position — decoding `body + "\n\n" + "## Sources\n\n" + encode(D)`
yields a sources list equal to `D`. -/
theorem encode_extract_roundtrip (body : List Char) (D : List SourceItem)
    (hbody : ∀ n < (body ++ ['\n', '\n']).length,
      headingMatch ((body ++ ['\n', '\n']).drop n) = none)
    (hD : ∀ d ∈ D, GoodDescriptor d) :
    (extractSourcesSection
      (body ++ ['\n', '\n'] ++ headingBlock ++ encodeBlock D)).sources = D := by
  have henc : encodeBlock D = [] ∨
      ∃ c t, encodeBlock D = c :: t ∧ isJsWs c = false := by
    cases D with
    | nil => exact Or.inl rfl
    | cons d0 D' =>
      obtain ⟨r0, rest, hcons, hr0⟩ := encodeLine_cons d0
      have hh : (encodeBlock (d0 :: D')).head? = some r0 := by
        rw [encodeBlock, List.map_cons, joinWith_head? (by rw [hcons]; simp), hcons]
        rfl
      cases hE : encodeBlock (d0 :: D') with
      | nil =>
        rw [hE] at hh
        cases hh
      | cons e et =>
        rw [hE] at hh
        simp only [List.head?_cons, Option.some.injEq] at hh
        exact Or.inr ⟨e, et, rfl, hh ▸ isJsWs_of_isDigitCh hr0⟩
  have hm : headingMatch (headingBlock ++ encodeBlock D) = some (encodeBlock D) :=
    headingMatch_headingBlock _ henc
  have hfirst : ∀ n < (body ++ ['\n', '\n']).length,
      headingMatch
        (((body ++ ['\n', '\n']) ++ (headingBlock ++ encodeBlock D)).drop n) =
        none := by
    intro n hn
    have hd1 : ((body ++ ['\n', '\n']) ++ (headingBlock ++ encodeBlock D)).drop n =
        (body ++ ['\n', '\n']).drop n ++ (headingBlock ++ encodeBlock D) := by
      rw [List.drop_append_eq_append_drop,
        show n - (body ++ ['\n', '\n']).length = 0 from by omega, List.drop_zero]
    rw [hd1]
    have hne : (body ++ ['\n', '\n']).drop n ≠ [] := by
      intro hnil
      have hlen := congrArg List.length hnil
      simp only [List.length_drop, List.length_nil] at hlen
      omega
    exact headingMatch_append_blocked _
      (' ' :: 'S' :: 'o' :: 'u' :: 'r' :: 'c' :: 'e' :: 's' :: '\n' :: '\n' ::
        encodeBlock D) hne (hbody n hn)
  have hsplit : findSplitGo []
      ((body ++ ['\n', '\n']) ++ (headingBlock ++ encodeBlock D)) =
      some (body ++ ['\n', '\n'], encodeBlock D) := by
    have h := findSplitGo_append (body ++ ['\n', '\n'])
      (headingBlock ++ encodeBlock D) (encodeBlock D) [] hfirst hm
    simpa using h
  have hassoc : body ++ ['\n', '\n'] ++ headingBlock ++ encodeBlock D =
      (body ++ ['\n', '\n']) ++ (headingBlock ++ encodeBlock D) := by
    simp [List.append_assoc]
  rw [hassoc]
  unfold extractSourcesSection
  rw [hsplit]
  exact sources_of_encodeBlock D hD

/-- **C2, counterexample.**  The claim's preconditions (non-empty titles
and links without `]`/`)`) are not sufficient: a collection name containing
a comma is split by the decoder, so the descriptor list is not recovered.
Here `collections = ["a,b"]` decodes to `["a", "b"]`. -/
theorem encode_extract_not_roundtrip :
    (extractSourcesSection
      ("body".data ++ ['\n', '\n'] ++ headingBlock ++
        encodeBlock [⟨1, "t".data, "u".data, false, none, ["a,b".data]⟩])).sources
      ≠ [⟨1, "t".data, "u".data, false, none, ["a,b".data]⟩] := by
  decide

/-- Witness for the amended C2 on two concrete descriptors (an internal
`doc://` link without collections and an external link with two
collections), with body `"body"`. -/
theorem encode_extract_roundtrip_witness :
    (∀ n < (("body".data ++ ['\n', '\n']) : List Char).length,
      headingMatch ((("body".data ++ ['\n', '\n']) : List Char).drop n) = none)
    ∧ (∀ d ∈ [(⟨1, "Report".data, "doc://abc".data, true, some "abc".data,
          []⟩ : SourceItem),
        ⟨2, "Guide".data, "https://x.y".data, false, none,
          ["alpha".data, "beta".data]⟩], GoodDescriptor d)
    ∧ (extractSourcesSection
        ("body".data ++ ['\n', '\n'] ++ headingBlock ++
          encodeBlock
            [⟨1, "Report".data, "doc://abc".data, true, some "abc".data, []⟩,
             ⟨2, "Guide".data, "https://x.y".data, false, none,
               ["alpha".data, "beta".data]⟩])).sources =
      [⟨1, "Report".data, "doc://abc".data, true, some "abc".data, []⟩,
       ⟨2, "Guide".data, "https://x.y".data, false, none,
         ["alpha".data, "beta".data]⟩] :=
  ⟨by decide, by unfold GoodDescriptor GoodCollName; decide,
    encode_extract_roundtrip "body".data
      [⟨1, "Report".data, "doc://abc".data, true, some "abc".data, []⟩,
       ⟨2, "Guide".data, "https://x.y".data, false, none,
         ["alpha".data, "beta".data]⟩]
      (by decide) (by unfold GoodDescriptor GoodCollName; decide)⟩
